import Mathlib

/-!
Verification of the `rust-jwt` core (`src/lib.rs`): a shallow embedding of the
encode/decode/sign/verify pipeline together with its external collaborators
(UTF-8 codec, base64url codec per `rustc_serialize`, SHA-2/HMAC per
`rust-crypto`), and theorems settling the specification's claims.

Text values (Rust `&str`/`String`) are modelled as `List Char`; byte slices
(Rust `&[u8]`/`Vec<u8>`) as `List Nat` with every element below 256.  Machine
integer arithmetic (`u32`/`u64` wrapping) is modelled with `Nat` and explicit
`% 2^32` / `% 2^64`.
-/

namespace JWT

/-- The algorithms supported for signing/verifying (`enum Algorithm`). -/
inductive Algorithm
  | HS256
  | HS384
  | HS512
deriving DecidableEq

/-- Modelled from the spec: the error type of the `errors` module, whose file
(`src/errors.rs`) is not among the sources; spec section 7 lists the closed set
of variants, used by `lib.rs` as `Error::InvalidToken`, `Error::InvalidSignature`,
`Error::WrongAlgorithmHeader` plus the wrapped codec failures. -/
inductive Error
  | InvalidToken
  | InvalidSignature
  | WrongAlgorithmHeader
  | Base64DecodeError
  | Utf8DecodeError
  | JsonDecodeError
  | JsonEncodeError
deriving DecidableEq

/-! ### UTF-8 codec (Rust `str::as_bytes` / `String::from_utf8`) -/

/-- UTF-8 bytes of a single character (big-endian multibyte forms). -/
def utf8EncodeChar (c : Char) : List Nat :=
  let n := c.toNat
  if n < 128 then [n]
  else if n < 2048 then [192 + n / 64, 128 + n % 64]
  else if n < 65536 then [224 + n / 4096, 128 + n / 64 % 64, 128 + n % 64]
  else [240 + n / 262144, 128 + n / 4096 % 64, 128 + n / 64 % 64, 128 + n % 64]

/-- UTF-8 bytes of a string (`str::as_bytes`). -/
def utf8Encode (s : List Char) : List Nat :=
  (s.map utf8EncodeChar).flatten

/-- Fuel-driven strict UTF-8 decoder: rejects truncated sequences, stray or
missing continuation bytes, overlong forms, surrogates and values above
U+10FFFF, exactly as Rust's `String::from_utf8`.  The fuel only serves
structural termination; `utf8Decode` supplies enough for the whole input. -/
def utf8DecodeF : Nat → List Nat → Option (List Char)
  | _, [] => some []
  | 0, _ :: _ => none
  | fuel + 1, b1 :: rest =>
    if b1 < 128 then
      (utf8DecodeF fuel rest).map (fun s => Char.ofNat b1 :: s)
    else if b1 < 194 then none
    else if b1 < 224 then
      match rest with
      | b2 :: rest2 =>
        if 128 ≤ b2 ∧ b2 < 192 then
          (utf8DecodeF fuel rest2).map
            (fun s => Char.ofNat ((b1 - 192) * 64 + (b2 - 128)) :: s)
        else none
      | [] => none
    else if b1 < 240 then
      match rest with
      | b2 :: b3 :: rest3 =>
        if (128 ≤ b2 ∧ b2 < 192) ∧ (128 ≤ b3 ∧ b3 < 192)
            ∧ (b1 = 224 → 160 ≤ b2) ∧ (b1 = 237 → b2 < 160) then
          (utf8DecodeF fuel rest3).map
            (fun s => Char.ofNat ((b1 - 224) * 4096 + (b2 - 128) * 64 + (b3 - 128)) :: s)
        else none
      | _ => none
    else if b1 < 245 then
      match rest with
      | b2 :: b3 :: b4 :: rest4 =>
        if (128 ≤ b2 ∧ b2 < 192) ∧ (128 ≤ b3 ∧ b3 < 192) ∧ (128 ≤ b4 ∧ b4 < 192)
            ∧ (b1 = 240 → 144 ≤ b2) ∧ (b1 = 244 → b2 < 144) then
          (utf8DecodeF fuel rest4).map
            (fun s =>
              Char.ofNat ((b1 - 240) * 262144 + (b2 - 128) * 4096
                + (b3 - 128) * 64 + (b4 - 128)) :: s)
        else none
      | _ => none
    else none

/-- Model of `String::from_utf8` on a byte list. -/
def utf8Decode (l : List Nat) : Option (List Char) :=
  utf8DecodeF l.length l

/-! ### base64url codec (`rustc_serialize::base64`, `URL_SAFE` config:
URL-safe alphabet, no padding, no line wrap) -/

def b64Alphabet : List Char :=
  "ABCDEFGHIJKLMNOPQRSTUVWXYZabcdefghijklmnopqrstuvwxyz0123456789-_".toList

def b64Char (v : Nat) : Char := b64Alphabet.getD v 'A'

/-- Model of `ToBase64::to_base64` with `URL_SAFE`: 3-byte chunks become 4 characters;
a 1- or 2-byte tail becomes 2 or 3 characters and no padding is emitted.
The 24-bit accumulator `n` and the `>> 18 & 63`-style extractions of the source
are written with `/` and `% 64`. -/
def base64urlEncode : List Nat → List Char
  | b1 :: b2 :: b3 :: rest =>
    let n := b1 * 65536 + b2 * 256 + b3
    b64Char (n / 262144 % 64) :: b64Char (n / 4096 % 64) :: b64Char (n / 64 % 64)
      :: b64Char (n % 64) :: base64urlEncode rest
  | [b1, b2] =>
    let n := b1 * 65536 + b2 * 256
    [b64Char (n / 262144 % 64), b64Char (n / 4096 % 64), b64Char (n / 64 % 64)]
  | [b1] =>
    let n := b1 * 65536
    [b64Char (n / 262144 % 64), b64Char (n / 4096 % 64)]
  | [] => []

/-- The decode table of `FromBase64::from_base64`: values for the standard and
URL-safe alphabets; `none` for every other byte. -/
def b64Code (b : Nat) : Option Nat :=
  if 65 ≤ b ∧ b ≤ 90 then some (b - 65)
  else if 97 ≤ b ∧ b ≤ 122 then some (b - 71)
  else if 48 ≤ b ∧ b ≤ 57 then some (b + 4)
  else if b = 43 ∨ b = 45 then some 62
  else if b = 47 ∨ b = 95 then some 63
  else none

/-- After a `=` the source only tolerates further `=`, `\r` and `\n` bytes. -/
def b64TrailOk : List Nat → Bool
  | [] => true
  | b :: rest => if b = 61 ∨ b = 13 ∨ b = 10 then b64TrailOk rest else false

/-- Flush of the 32-bit accumulator at end of input (`match modulus`):
`buf >> 10`, `buf >> 16` and `buf >> 8` truncated to bytes; a modulus of 1
is an invalid length. -/
def b64Flush (buf modulus : Nat) (acc : List Nat) : Option (List Nat) :=
  match modulus with
  | 0 => some acc
  | 2 => some (acc ++ [buf / 1024 % 256])
  | 3 => some (acc ++ [buf / 65536 % 256, buf / 256 % 256])
  | _ => none

/-- The decoding loop of `FromBase64::from_base64`: a 32-bit accumulator `buf`
shifted left six bits per alphabet byte (`(buf | code) << 6` — the freshly
shifted `buf` has zero low bits, so the or is written as `+`), three bytes
pushed every four characters, newlines skipped, `=` terminating the loop. -/
def base64urlDecodeLoop : List Nat → Nat → Nat → List Nat → Option (List Nat)
  | [], buf, modulus, acc => b64Flush buf modulus acc
  | b :: rest, buf, modulus, acc =>
    if b = 13 ∨ b = 10 then base64urlDecodeLoop rest buf modulus acc
    else if b = 61 then
      if b64TrailOk rest then b64Flush buf modulus acc else none
    else
      match b64Code b with
      | none => none
      | some v =>
        let buf2 := (buf + v) * 64 % 4294967296
        if modulus + 1 = 4 then
          base64urlDecodeLoop rest 0 0
            (acc ++ [buf2 / 4194304 % 256, buf2 / 16384 % 256, buf2 / 64 % 256])
        else
          base64urlDecodeLoop rest buf2 (modulus + 1) acc

/-- Model of `FromBase64::from_base64` on a byte list. -/
def base64urlDecode (l : List Nat) : Option (List Nat) :=
  base64urlDecodeLoop l 0 0 []

/-! ### SHA-2 (`crypto::sha2`) and HMAC (`crypto::hmac`) -/

/-- Model of `u32::rotate_right`. -/
def rotr32 (r n : Nat) : Nat := ((n >>> r) ||| (n <<< (32 - r))) % 4294967296

/-- Model of `u64::rotate_right`. -/
def rotr64 (r n : Nat) : Nat := ((n >>> r) ||| (n <<< (64 - r))) % 18446744073709551616

/-- Model of `ch(x, y, z) = (x & y) ^ (!x & z)`; `mask` is the all-ones word. -/
def chf (mask x y z : Nat) : Nat := (x &&& y) ^^^ ((x ^^^ mask) &&& z)

/-- Model of `maj(x, y, z) = (x & y) ^ (x & z) ^ (y & z)`. -/
def majf (x y z : Nat) : Nat := (x &&& y) ^^^ (x &&& z) ^^^ (y &&& z)

def bsig0x32 (x : Nat) : Nat := rotr32 2 x ^^^ rotr32 13 x ^^^ rotr32 22 x
def bsig1x32 (x : Nat) : Nat := rotr32 6 x ^^^ rotr32 11 x ^^^ rotr32 25 x
def ssig0x32 (x : Nat) : Nat := rotr32 7 x ^^^ rotr32 18 x ^^^ (x >>> 3)
def ssig1x32 (x : Nat) : Nat := rotr32 17 x ^^^ rotr32 19 x ^^^ (x >>> 10)

def bsig0x64 (x : Nat) : Nat := rotr64 28 x ^^^ rotr64 34 x ^^^ rotr64 39 x
def bsig1x64 (x : Nat) : Nat := rotr64 14 x ^^^ rotr64 18 x ^^^ rotr64 41 x
def ssig0x64 (x : Nat) : Nat := rotr64 1 x ^^^ rotr64 8 x ^^^ (x >>> 7)
def ssig1x64 (x : Nat) : Nat := rotr64 19 x ^^^ rotr64 61 x ^^^ (x >>> 6)

def K256 : List Nat := [
  1116352408, 1899447441, 3049323471, 3921009573,
  961987163, 1508970993, 2453635748, 2870763221,
  3624381080, 310598401, 607225278, 1426881987,
  1925078388, 2162078206, 2614888103, 3248222580,
  3835390401, 4022224774, 264347078, 604807628,
  770255983, 1249150122, 1555081692, 1996064986,
  2554220882, 2821834349, 2952996808, 3210313671,
  3336571891, 3584528711, 113926993, 338241895,
  666307205, 773529912, 1294757372, 1396182291,
  1695183700, 1986661051, 2177026350, 2456956037,
  2730485921, 2820302411, 3259730800, 3345764771,
  3516065817, 3600352804, 4094571909, 275423344,
  430227734, 506948616, 659060556, 883997877,
  958139571, 1322822218, 1537002063, 1747873779,
  1955562222, 2024104815, 2227730452, 2361852424,
  2428436474, 2756734187, 3204031479, 3329325298]

def K512 : List Nat := [
  4794697086780616226, 8158064640168781261, 13096744586834688815, 16840607885511220156,
  4131703408338449720, 6480981068601479193, 10538285296894168987, 12329834152419229976,
  15566598209576043074, 1334009975649890238, 2608012711638119052, 6128411473006802146,
  8268148722764581231, 9286055187155687089, 11230858885718282805, 13951009754708518548,
  16472876342353939154, 17275323862435702243, 1135362057144423861, 2597628984639134821,
  3308224258029322869, 5365058923640841347, 6679025012923562964, 8573033837759648693,
  10970295158949994411, 12119686244451234320, 12683024718118986047, 13788192230050041572,
  14330467153632333762, 15395433587784984357, 489312712824947311, 1452737877330783856,
  2861767655752347644, 3322285676063803686, 5560940570517711597, 5996557281743188959,
  7280758554555802590, 8532644243296465576, 9350256976987008742, 10552545826968843579,
  11727347734174303076, 12113106623233404929, 14000437183269869457, 14369950271660146224,
  15101387698204529176, 15463397548674623760, 17586052441742319658, 1182934255886127544,
  1847814050463011016, 2177327727835720531, 2830643537854262169, 3796741975233480872,
  4115178125766777443, 5681478168544905931, 6601373596472566643, 7507060721942968483,
  8399075790359081724, 8693463985226723168, 9568029438360202098, 10144078919501101548,
  10430055236837252648, 11840083180663258601, 13761210420658862357, 14299343276471374635,
  14566680578165727644, 15097957966210449927, 16922976911328602910, 17689382322260857208,
  500013540394364858, 748580250866718886, 1242879168328830382, 1977374033974150939,
  2944078676154940804, 3659926193048069267, 4368137639120453308, 4836135668995329356,
  5532061633213252278, 6448918945643986474, 6902733635092675308, 7801388544844847127]

/-- Working state `(a, b, c, d, e, f, g, h)` of a SHA-2 compression. -/
abbrev Sha2State := Nat × Nat × Nat × Nat × Nat × Nat × Nat × Nat

def H256initState : Sha2State :=
  (1779033703, 3144134277, 1013904242, 2773480762,
   1359893119, 2600822924, 528734635, 1541459225)

def H512initState : Sha2State :=
  (7640891576956012808, 13503953896175478587, 4354685564936845355, 11912009170470909681,
   5840696475078001361, 11170449401992604703, 2270897969802886507, 6620516959819538809)

def H384initState : Sha2State :=
  (14680500436340154072, 7105036623409894663, 10473403895298186519, 1526699215303891257,
   7436329637833083697, 10282925794625328401, 15784041429090275239, 5167115440072839076)

/-- Big-endian bytes of a word, `k` bytes wide. -/
def beBytes : Nat → Nat → List Nat
  | 0, _ => []
  | k + 1, n => beBytes k (n / 256) ++ [n % 256]

/-- Big-endian 32-bit words of a byte list. -/
def wordsOf4 : List Nat → List Nat
  | b1 :: b2 :: b3 :: b4 :: rest =>
    (b1 * 16777216 + b2 * 65536 + b3 * 256 + b4) :: wordsOf4 rest
  | _ => []

/-- Big-endian 64-bit words of a byte list. -/
def wordsOf8 : List Nat → List Nat
  | b1 :: b2 :: b3 :: b4 :: b5 :: b6 :: b7 :: b8 :: rest =>
    (((((((b1 * 256 + b2) * 256 + b3) * 256 + b4) * 256 + b5) * 256 + b6) * 256 + b7) * 256 + b8)
      :: wordsOf8 rest
  | _ => []

/-- Message-schedule extension: `ws` holds the words produced so far, most
recent first, so `w[i-16]`, `w[i-15]`, `w[i-7]`, `w[i-2]` sit at reversed
indices 15, 14, 6, 1. -/
def sha2schedule (M : Nat) (ss0 ss1 : Nat → Nat) : Nat → List Nat → List Nat
  | 0, ws => ws
  | n + 1, ws =>
    let w := (ws.getD 15 0 + ss0 (ws.getD 14 0) + ws.getD 6 0 + ss1 (ws.getD 1 0)) % M
    sha2schedule M ss0 ss1 n (w :: ws)

/-- One SHA-2 round: `kw` is `K[i] + w[i]`. -/
def sha2round (M mask : Nat) (bs0 bs1 : Nat → Nat) (st : Sha2State) (kw : Nat) : Sha2State :=
  let (a, b, c, d, e, f, g, h) := st
  let t1 := (h + bs1 e + chf mask e f g + kw) % M
  let t2 := (bs0 a + majf a b c) % M
  ((t1 + t2) % M, a, b, c, (d + t1) % M, e, f, g)

/-- Compress one message block into the running state. -/
def sha2compress (M mask : Nat) (bs0 bs1 ss0 ss1 : Nat → Nat) (K : List Nat)
    (words : List Nat → List Nat) (st : Sha2State) (block : List Nat) : Sha2State :=
  let w0 := words block
  let w := (sha2schedule M ss0 ss1 (K.length - 16) w0.reverse).reverse
  let kw := List.zipWith (fun k wi => (k + wi) % M) K w
  let r := List.foldl (sha2round M mask bs0 bs1) st kw
  let (a, b, c, d, e, f, g, h) := r
  ((st.1 + a) % M, (st.2.1 + b) % M, (st.2.2.1 + c) % M, (st.2.2.2.1 + d) % M,
   (st.2.2.2.2.1 + e) % M, (st.2.2.2.2.2.1 + f) % M, (st.2.2.2.2.2.2.1 + g) % M,
   (st.2.2.2.2.2.2.2 + h) % M)

/-- Merkle–Damgård padding: `0x80`, zeros, then the bit length big-endian in
`lenBytes` bytes, to a multiple of `blockBytes`. -/
def sha2pad (blockBytes lenBytes : Nat) (msg : List Nat) : List Nat :=
  let L := msg.length
  let z := (blockBytes - (L + 1 + lenBytes) % blockBytes) % blockBytes
  msg ++ 128 :: (List.replicate z 0 ++ beBytes lenBytes (8 * L))

/-- Split into `n` chunks of `sz` bytes. -/
def chunksF : Nat → Nat → List Nat → List (List Nat)
  | 0, _, _ => []
  | n + 1, sz, l => l.take sz :: chunksF n sz (l.drop sz)

def sha256 (msg : List Nat) : List Nat :=
  let padded := sha2pad 64 8 msg
  let blocks := chunksF (padded.length / 64) 64 padded
  let st := blocks.foldl
    (sha2compress 4294967296 4294967295 bsig0x32 bsig1x32 ssig0x32 ssig1x32 K256 wordsOf4)
    H256initState
  beBytes 4 st.1 ++ beBytes 4 st.2.1 ++ beBytes 4 st.2.2.1 ++ beBytes 4 st.2.2.2.1
    ++ beBytes 4 st.2.2.2.2.1 ++ beBytes 4 st.2.2.2.2.2.1 ++ beBytes 4 st.2.2.2.2.2.2.1
    ++ beBytes 4 st.2.2.2.2.2.2.2

def sha512core (initState : Sha2State) (msg : List Nat) : Sha2State :=
  let padded := sha2pad 128 16 msg
  let blocks := chunksF (padded.length / 128) 128 padded
  blocks.foldl
    (sha2compress 18446744073709551616 18446744073709551615
      bsig0x64 bsig1x64 ssig0x64 ssig1x64 K512 wordsOf8)
    initState

def sha512 (msg : List Nat) : List Nat :=
  let st := sha512core H512initState msg
  beBytes 8 st.1 ++ beBytes 8 st.2.1 ++ beBytes 8 st.2.2.1 ++ beBytes 8 st.2.2.2.1
    ++ beBytes 8 st.2.2.2.2.1 ++ beBytes 8 st.2.2.2.2.2.1 ++ beBytes 8 st.2.2.2.2.2.2.1
    ++ beBytes 8 st.2.2.2.2.2.2.2

/-- SHA-384: the SHA-512 pipeline with its own initial state, truncated to the
first six words (48 bytes). -/
def sha384 (msg : List Nat) : List Nat :=
  let st := sha512core H384initState msg
  beBytes 8 st.1 ++ beBytes 8 st.2.1 ++ beBytes 8 st.2.2.1 ++ beBytes 8 st.2.2.2.1
    ++ beBytes 8 st.2.2.2.2.1 ++ beBytes 8 st.2.2.2.2.2.1

/-- Hash function bound to each algorithm (`Sha256::new()` etc.). -/
def hashOf : Algorithm → (List Nat → List Nat)
  | .HS256 => sha256
  | .HS384 => sha384
  | .HS512 => sha512

/-- HMAC block size of the underlying hash. -/
def blockSizeOf : Algorithm → Nat
  | .HS256 => 64
  | .HS384 => 128
  | .HS512 => 128

/-- Model of `Hmac::new` key schedule: a key longer than the block size is hashed
first; the result is zero-padded to the block size. -/
def hmacKey (alg : Algorithm) (key : List Nat) : List Nat :=
  let B := blockSizeOf alg
  let k := if key.length ≤ B then key else hashOf alg key
  k ++ List.replicate (B - k.length) 0

/-- Model of `hmac.input(data); hmac.result().code()`:
`H((key ^ opad) ++ H((key ^ ipad) ++ msg))`. -/
def hmacDigest (alg : Algorithm) (key msg : List Nat) : List Nat :=
  let k0 := hmacKey alg key
  hashOf alg ((k0.map (fun b => b ^^^ 92)) ++ hashOf alg ((k0.map (fun b => b ^^^ 54)) ++ msg))

/-! ### The `lib.rs` core -/

/-- Model of `struct Header { typ: &'static str, alg: Algorithm }`. -/
structure Header where
  typ : List Char
  alg : Algorithm
deriving DecidableEq

def Header.new (algorithm : Algorithm) : Header :=
  { typ := "JWT".toList, alg := algorithm }

/-- The three hard-coded header literals of `Header::{from_base64, to_base64}`. -/
def headerLiteral : Algorithm → List Char
  | .HS256 => "eyJ0eXAiOiJKV1QiLCJhbGciOiJIUzI1NiJ9".toList
  | .HS384 => "eyJ0eXAiOiJKV1QiLCJhbGciOiJIUzM4NCJ9".toList
  | .HS512 => "eyJ0eXAiOiJKV1QiLCJhbGciOiJIUzUxMiJ9".toList

/-- The canonical header JSON for each algorithm (spec section 6). -/
def headerJson : Algorithm → List Char
  | .HS256 => "\x7b\"typ\":\"JWT\",\"alg\":\"HS256\"\x7d".toList
  | .HS384 => "\x7b\"typ\":\"JWT\",\"alg\":\"HS384\"\x7d".toList
  | .HS512 => "\x7b\"typ\":\"JWT\",\"alg\":\"HS512\"\x7d".toList

/-- Model of `Header::from_base64`: byte-compare the input against the three literals
(`b"eyJ0..."`); anything else is `Error::InvalidToken`. -/
def Header.from_base64 (encoded : List Nat) : Except Error Header :=
  if encoded = utf8Encode (headerLiteral .HS256) then .ok (Header.new .HS256)
  else if encoded = utf8Encode (headerLiteral .HS384) then .ok (Header.new .HS384)
  else if encoded = utf8Encode (headerLiteral .HS512) then .ok (Header.new .HS512)
  else .error .InvalidToken

/-- Model of `Header::to_base64`: the literal matching `self.alg`, always `Ok`. -/
def Header.to_base64 (h : Header) : Except Error (List Char) :=
  .ok (headerLiteral h.alg)

/-- The generic `Part` capability for claims: the external JSON collaborator,
`json::encode` / `json::decode` for the caller's record type `T` (a failing
result models a `json::EncoderError` / `json::DecoderError`). -/
structure PartCodec (T : Type) where
  enc : T → Option (List Char)
  dec : List Char → Option T

/-- Model of `impl<T: Encodable + Decodable> Part for T`, `to_base64`:
`json::encode(&self)` then base64url of the UTF-8 bytes. -/
def part_to_base64 {T : Type} (P : PartCodec T) (v : T) : Except Error (List Char) :=
  match P.enc v with
  | none => .error .JsonEncodeError
  | some j => .ok (base64urlEncode (utf8Encode j))

/-- Model of `impl<T: Encodable + Decodable> Part for T`, `from_base64`:
base64-decode, `String::from_utf8`, then `json::decode`. -/
def part_from_base64 {T : Type} (P : PartCodec T) (encoded : List Nat) : Except Error T :=
  match base64urlDecode encoded with
  | none => .error .Base64DecodeError
  | some bytes =>
    match utf8Decode bytes with
    | none => .error .Utf8DecodeError
    | some s =>
      match P.dec s with
      | none => .error .JsonDecodeError
      | some v => .ok v

/-- The accumulator loop of `crypto::util::fixed_time_eq`:
`r |= lhs[i] ^ rhs[i]` over every byte pair.  The second component counts the
byte comparisons performed, one per pair, unconditionally. -/
def ctFold : List (Nat × Nat) → Nat → Nat × Nat
  | [], r => (r, 0)
  | p :: rest, r =>
    let step := ctFold rest (r ||| (p.1 ^^^ p.2))
    (step.1, step.2 + 1)

/-- Model of `crypto::util::fixed_time_eq`: `false` straight away on a length mismatch,
otherwise the or-of-xors accumulator compared with zero after the full scan. -/
def fixed_time_eq (lhs rhs : List Nat) : Bool :=
  if lhs.length = rhs.length then (ctFold (lhs.zip rhs) 0).1 == 0 else false

/-- Model of `fn sign`: base64url of the HMAC digest of the payload bytes. -/
def sign (data : List Char) (secret : List Nat) (algorithm : Algorithm) : List Char :=
  base64urlEncode (hmacDigest algorithm secret (utf8Encode data))

/-- Model of `fn verify`: constant-time comparison of the given signature with a
re-computed one (both as UTF-8 bytes, via `AsRef<[u8]>`). -/
def verify (signature data : List Char) (secret : List Nat) (algorithm : Algorithm) : Bool :=
  fixed_time_eq (utf8Encode signature) (utf8Encode (sign data secret algorithm))

/-- Model of `pub fn encode`: header literal and claims part joined with `'.'`, signed,
and joined with the signature. -/
def encode {T : Type} (P : PartCodec T) (claims : T) (secret : List Nat)
    (algorithm : Algorithm) : Except Error (List Char) :=
  match (Header.new algorithm).to_base64 with
  | .error e => .error e
  | .ok encoded_header =>
    match part_to_base64 P claims with
    | .error e => .error e
    | .ok encoded_claims =>
      let payload := encoded_header ++ '.' :: encoded_claims
      let signature := sign payload secret algorithm
      .ok (payload ++ '.' :: signature)

/-- Split off the part after the first `sep` of the list:
`some (before, after)`, or `none` when `sep` does not occur. -/
def breakAtFirst (sep : Char) : List Char → Option (List Char × List Char)
  | [] => none
  | c :: cs =>
    if c = sep then some ([], cs)
    else
      match breakAtFirst sep cs with
      | none => none
      | some (a, b) => some (c :: a, b)

/-- Model of `expect_two!(s.rsplitn(2, '.'))`: exactly two pieces, scanning from the
right — `some (after-last-sep, before-last-sep)` — or `none` when `sep` does
not occur (the iterator then yields a single piece). -/
def rsplitn2 (sep : Char) (s : List Char) : Option (List Char × List Char) :=
  match breakAtFirst sep s.reverse with
  | none => none
  | some (a, b) => some (a.reverse, b.reverse)

/-- Model of `pub fn decode`: split off the signature, verify it first, then split the
payload, decode and check the header, and finally decode the claims. -/
def decode {T : Type} (P : PartCodec T) (token : List Char) (secret : List Char)
    (algorithm : Algorithm) : Except Error T :=
  match rsplitn2 '.' token with
  | none => .error .InvalidToken
  | some (signature, payload) =>
    if verify signature payload (utf8Encode secret) algorithm then
      match rsplitn2 '.' payload with
      | none => .error .InvalidToken
      | some (claims, header) =>
        match Header.from_base64 (utf8Encode header) with
        | .error e => .error e
        | .ok h =>
          if h.alg ≠ algorithm then .error .WrongAlgorithmHeader
          else part_from_base64 P (utf8Encode claims)
    else .error .InvalidSignature

/-- Digest size in bytes of the hash bound to each algorithm. -/
def digestLen : Algorithm → Nat
  | .HS256 => 32
  | .HS384 => 48
  | .HS512 => 64

/-- Length in characters of an unpadded base64url rendering of a digest. -/
def sigLen : Algorithm → Nat
  | .HS256 => 43
  | .HS384 => 64
  | .HS512 => 86

/-- A concrete claims codec used for evaluating the pipeline at concrete
inputs: the record type is the JSON text itself and the codec is the identity
(a serialization that always succeeds and round-trips). -/
def idCodec : PartCodec (List Char) where
  enc := fun s => some s
  dec := fun s => some s

/-! ### Lemmas: splitting -/

theorem breakAtFirst_eq_none {sep : Char} {l : List Char} :
    breakAtFirst sep l = none ↔ sep ∉ l := by
  induction l with
  | nil => simp [breakAtFirst]
  | cons c cs ih =>
    by_cases h : c = sep
    · subst h
      simp [breakAtFirst]
    · simp only [breakAtFirst, if_neg h]
      cases hb : breakAtFirst sep cs with
      | none => simp [hb] at ih; simp [ih, List.mem_cons, h]; intro hc; exact (h hc.symm).elim
      | some p => simp only []; constructor
                  · intro hcontra; cases hcontra
                  · intro hmem
                    exfalso
                    have : sep ∉ cs := fun hx => hmem (List.mem_cons_of_mem _ hx)
                    rw [← ih] at this
                    rw [hb] at this
                    cases this

theorem breakAtFirst_append {sep : Char} {a : List Char} (b : List Char)
    (ha : sep ∉ a) : breakAtFirst sep (a ++ sep :: b) = some (a, b) := by
  induction a with
  | nil => simp [breakAtFirst]
  | cons c cs ih =>
    have hc : c ≠ sep := fun h => ha (h ▸ List.mem_cons_self c cs)
    have hcs : sep ∉ cs := fun h => ha (List.mem_cons_of_mem _ h)
    simp only [List.cons_append, breakAtFirst, List.append_eq, if_neg hc, ih hcs]

theorem rsplitn2_eq_none {sep : Char} {s : List Char} :
    rsplitn2 sep s = none ↔ sep ∉ s := by
  unfold rsplitn2
  cases hb : breakAtFirst sep s.reverse with
  | none =>
    have : sep ∉ s.reverse := breakAtFirst_eq_none.mp hb
    simpa using this
  | some p =>
    simp only []
    constructor
    · intro h; cases h
    · intro hmem
      have : sep ∉ s.reverse := by simpa using hmem
      rw [← breakAtFirst_eq_none, hb] at this
      cases this

theorem rsplitn2_append {sep : Char} {s : List Char} (p : List Char)
    (hs : sep ∉ s) : rsplitn2 sep (p ++ sep :: s) = some (s, p) := by
  have hrev : (p ++ sep :: s).reverse = s.reverse ++ sep :: p.reverse := by
    simp
  have hns : sep ∉ s.reverse := by simpa using hs
  unfold rsplitn2
  rw [hrev, breakAtFirst_append p.reverse hns]
  simp

/-! ### Lemmas: the constant-time comparison -/

theorem lor_eq_zero_parts {a b : Nat} (h : a ||| b = 0) : a = 0 ∧ b = 0 := by
  constructor
  · apply Nat.eq_of_testBit_eq
    intro i
    have := congrArg (fun n => Nat.testBit n i) h
    simp only [Nat.testBit_or, Nat.zero_testBit, Bool.or_eq_false_iff] at this
    simp [this.1]
  · apply Nat.eq_of_testBit_eq
    intro i
    have := congrArg (fun n => Nat.testBit n i) h
    simp only [Nat.testBit_or, Nat.zero_testBit, Bool.or_eq_false_iff] at this
    simp [this.2]

theorem ctFold_fst_eq_zero {l : List (Nat × Nat)} {r : Nat} :
    (ctFold l r).1 = 0 ↔ r = 0 ∧ ∀ p ∈ l, p.1 = p.2 := by
  induction l generalizing r with
  | nil => simp [ctFold]
  | cons p rest ih =>
    simp only [ctFold, List.mem_cons]
    rw [ih]
    constructor
    · rintro ⟨hor, hrest⟩
      obtain ⟨hr, hx⟩ := lor_eq_zero_parts hor
      refine ⟨hr, ?_⟩
      intro q hq
      rcases hq with hq | hq
      · subst hq; exact Nat.xor_eq_zero.mp hx
      · exact hrest q hq
    · rintro ⟨hr, hall⟩
      have hx : p.1 ^^^ p.2 = 0 := Nat.xor_eq_zero.mpr (hall p (Or.inl rfl))
      refine ⟨?_, fun q hq => hall q (Or.inr hq)⟩
      simp [hr, hx]

theorem ctFold_snd (l : List (Nat × Nat)) (r : Nat) : (ctFold l r).2 = l.length := by
  induction l generalizing r with
  | nil => rfl
  | cons p rest ih => simp [ctFold, ih]

theorem zip_pointwise_eq : ∀ {a b : List Nat}, a.length = b.length →
    (∀ p ∈ a.zip b, p.1 = p.2) → a = b := by
  intro a
  induction a with
  | nil =>
    intro b h _
    cases b with
    | nil => rfl
    | cons y ys => simp at h
  | cons x xs ih =>
    intro b hlen hall
    cases b with
    | nil => simp at hlen
    | cons y ys =>
      have hx : x = y := hall (x, y) (by simp [List.zip_cons_cons])
      have hxs : xs = ys :=
        ih (by simpa using hlen) (fun p hp => hall p (by simp [List.zip_cons_cons, hp]))
      rw [hx, hxs]

theorem mem_zip_self {l : List Nat} {p : Nat × Nat} (hp : p ∈ l.zip l) : p.1 = p.2 := by
  induction l with
  | nil => cases hp
  | cons x xs ih =>
    simp only [List.zip_cons_cons, List.mem_cons] at hp
    rcases hp with hp | hp
    · subst hp; rfl
    · exact ih hp

theorem fixed_time_eq_iff {a b : List Nat} : fixed_time_eq a b = true ↔ a = b := by
  unfold fixed_time_eq
  by_cases hlen : a.length = b.length
  · rw [if_pos hlen]
    simp only [beq_iff_eq]
    rw [ctFold_fst_eq_zero]
    constructor
    · rintro ⟨-, hall⟩
      exact zip_pointwise_eq hlen hall
    · rintro rfl
      refine ⟨rfl, ?_⟩
      intro p hp
      exact mem_zip_self hp
  · rw [if_neg hlen]
    simp only [Bool.false_eq_true, false_iff]
    intro h; exact hlen (h ▸ rfl)

/-! ### Lemmas: UTF-8 -/

theorem utf8Encode_cons (c : Char) (s : List Char) :
    utf8Encode (c :: s) = utf8EncodeChar c ++ utf8Encode s := by
  simp [utf8Encode]

theorem utf8Encode_append (a b : List Char) :
    utf8Encode (a ++ b) = utf8Encode a ++ utf8Encode b := by
  simp [utf8Encode]

theorem utf8EncodeChar_ascii {c : Char} (h : c.toNat < 128) :
    utf8EncodeChar c = [c.toNat] := by
  simp [utf8EncodeChar, h]

theorem utf8Encode_ascii {s : List Char} (h : ∀ c ∈ s, c.toNat < 128) :
    utf8Encode s = s.map Char.toNat := by
  induction s with
  | nil => rfl
  | cons c cs ih =>
    rw [utf8Encode_cons, utf8EncodeChar_ascii (h c (List.mem_cons_self c cs)),
      ih (fun x hx => h x (List.mem_cons_of_mem _ hx))]
    rfl

theorem char_valid_range (c : Char) :
    c.toNat < 55296 ∨ (57343 < c.toNat ∧ c.toNat < 1114112) := c.valid

theorem utf8EncodeChar_lt (c : Char) : ∀ b ∈ utf8EncodeChar c, b < 256 := by
  have hval := char_valid_range c
  intro b hb
  unfold utf8EncodeChar at hb
  by_cases h1 : c.toNat < 128
  · simp [h1] at hb; omega
  · by_cases h2 : c.toNat < 2048
    · simp [h1, h2] at hb; rcases hb with rfl | rfl <;> omega
    · by_cases h3 : c.toNat < 65536
      · simp [h1, h2, h3] at hb; rcases hb with rfl | rfl | rfl <;> omega
      · simp [h1, h2, h3] at hb; rcases hb with rfl | rfl | rfl | rfl <;> omega

theorem utf8Encode_lt {s : List Char} : ∀ b ∈ utf8Encode s, b < 256 := by
  intro b hb
  unfold utf8Encode at hb
  rw [List.mem_flatten] at hb
  obtain ⟨l, hl, hbl⟩ := hb
  rw [List.mem_map] at hl
  obtain ⟨c, -, rfl⟩ := hl
  exact utf8EncodeChar_lt c b hbl

theorem utf8DecodeF_one (fuel b1 : Nat) (bs : List Nat) (h : b1 < 128) :
    utf8DecodeF (fuel + 1) (b1 :: bs)
      = (utf8DecodeF fuel bs).map (fun s => Char.ofNat b1 :: s) := by
  simp [utf8DecodeF, h]

theorem utf8DecodeF_two (fuel b1 b2 : Nat) (bs : List Nat)
    (h1 : 194 ≤ b1) (h2 : b1 < 224) (h3 : 128 ≤ b2) (h4 : b2 < 192) :
    utf8DecodeF (fuel + 1) (b1 :: b2 :: bs)
      = (utf8DecodeF fuel bs).map (fun s => Char.ofNat ((b1 - 192) * 64 + (b2 - 128)) :: s) := by
  have hn1 : ¬ b1 < 128 := by omega
  have hn2 : ¬ b1 < 194 := by omega
  have hc : 128 ≤ b2 ∧ b2 < 192 := ⟨h3, h4⟩
  simp [utf8DecodeF, hn1, hn2, h2, hc]

theorem utf8DecodeF_three (fuel b1 b2 b3 : Nat) (bs : List Nat)
    (h1 : 224 ≤ b1) (h2 : b1 < 240)
    (hc : (128 ≤ b2 ∧ b2 < 192) ∧ (128 ≤ b3 ∧ b3 < 192)
      ∧ (b1 = 224 → 160 ≤ b2) ∧ (b1 = 237 → b2 < 160)) :
    utf8DecodeF (fuel + 1) (b1 :: b2 :: b3 :: bs)
      = (utf8DecodeF fuel bs).map
          (fun s => Char.ofNat ((b1 - 224) * 4096 + (b2 - 128) * 64 + (b3 - 128)) :: s) := by
  have hn1 : ¬ b1 < 128 := by omega
  have hn2 : ¬ b1 < 194 := by omega
  have hn3 : ¬ b1 < 224 := by omega
  simp only [utf8DecodeF, if_neg hn1, if_neg hn2, if_neg hn3, if_pos h2]
  rw [if_pos hc]

theorem utf8DecodeF_four (fuel b1 b2 b3 b4 : Nat) (bs : List Nat)
    (h1 : 240 ≤ b1) (h2 : b1 < 245)
    (hc : (128 ≤ b2 ∧ b2 < 192) ∧ (128 ≤ b3 ∧ b3 < 192) ∧ (128 ≤ b4 ∧ b4 < 192)
      ∧ (b1 = 240 → 144 ≤ b2) ∧ (b1 = 244 → b2 < 144)) :
    utf8DecodeF (fuel + 1) (b1 :: b2 :: b3 :: b4 :: bs)
      = (utf8DecodeF fuel bs).map
          (fun s => Char.ofNat ((b1 - 240) * 262144 + (b2 - 128) * 4096
            + (b3 - 128) * 64 + (b4 - 128)) :: s) := by
  have hn1 : ¬ b1 < 128 := by omega
  have hn2 : ¬ b1 < 194 := by omega
  have hn3 : ¬ b1 < 224 := by omega
  have hn4 : ¬ b1 < 240 := by omega
  simp only [utf8DecodeF, if_neg hn1, if_neg hn2, if_neg hn3, if_neg hn4, if_pos h2]
  rw [if_pos hc]

theorem utf8DecodeF_encodeChar (c : Char) (bs : List Nat) (fuel : Nat) :
    utf8DecodeF (fuel + 1) (utf8EncodeChar c ++ bs)
      = (utf8DecodeF fuel bs).map (fun s => c :: s) := by
  have hval := char_valid_range c
  unfold utf8EncodeChar
  by_cases h1 : c.toNat < 128
  · rw [if_pos h1]
    simp only [List.cons_append, List.nil_append]
    rw [utf8DecodeF_one fuel _ bs h1, Char.ofNat_toNat]
  · rw [if_neg h1]
    by_cases h2 : c.toNat < 2048
    · rw [if_pos h2]
      simp only [List.cons_append, List.nil_append]
      rw [utf8DecodeF_two fuel _ _ bs (by omega) (by omega) (by omega) (by omega)]
      have harg : (192 + c.toNat / 64 - 192) * 64 + (128 + c.toNat % 64 - 128) = c.toNat := by
        omega
      rw [harg, Char.ofNat_toNat]
    · rw [if_neg h2]
      by_cases h3 : c.toNat < 65536
      · rw [if_pos h3]
        simp only [List.cons_append, List.nil_append]
        rw [utf8DecodeF_three fuel _ _ _ bs (by omega) (by omega)
          ⟨⟨by omega, by omega⟩, ⟨by omega, by omega⟩, by omega, by omega⟩]
        have harg : (224 + c.toNat / 4096 - 224) * 4096 + (128 + c.toNat / 64 % 64 - 128) * 64
            + (128 + c.toNat % 64 - 128) = c.toNat := by
          omega
        rw [harg, Char.ofNat_toNat]
      · rw [if_neg h3]
        simp only [List.cons_append, List.nil_append]
        rw [utf8DecodeF_four fuel _ _ _ _ bs (by omega) (by omega)
          ⟨⟨by omega, by omega⟩, ⟨by omega, by omega⟩, ⟨by omega, by omega⟩, by omega, by omega⟩]
        have harg : (240 + c.toNat / 262144 - 240) * 262144 + (128 + c.toNat / 4096 % 64 - 128) * 4096
            + (128 + c.toNat / 64 % 64 - 128) * 64 + (128 + c.toNat % 64 - 128) = c.toNat := by
          omega
        rw [harg, Char.ofNat_toNat]

theorem utf8DecodeF_encode (s : List Char) : ∀ fuel : Nat, s.length ≤ fuel →
    utf8DecodeF fuel (utf8Encode s) = some s := by
  induction s with
  | nil =>
    intro fuel _
    cases fuel <;> rfl
  | cons c cs ih =>
    intro fuel h
    obtain ⟨f, rfl⟩ : ∃ f, fuel = f + 1 := ⟨fuel - 1, by simp at h; omega⟩
    rw [utf8Encode_cons, utf8DecodeF_encodeChar c _ f,
      ih f (by simp at h; omega)]
    rfl

theorem length_le_utf8Encode_length (s : List Char) : s.length ≤ (utf8Encode s).length := by
  induction s with
  | nil => simp [utf8Encode]
  | cons c cs ih =>
    rw [utf8Encode_cons]
    have h1 : 1 ≤ (utf8EncodeChar c).length := by
      unfold utf8EncodeChar
      by_cases h1 : c.toNat < 128
      · simp [h1]
      · by_cases h2 : c.toNat < 2048
        · simp [h1, h2]
        · by_cases h3 : c.toNat < 65536 <;> simp [h1, h2, h3]
    simp only [List.length_append, List.length_cons]
    omega

theorem utf8Decode_encode (s : List Char) : utf8Decode (utf8Encode s) = some s :=
  utf8DecodeF_encode s _ (length_le_utf8Encode_length s)

theorem utf8Encode_injective {a b : List Char} (h : utf8Encode a = utf8Encode b) :
    a = b := by
  have ha := utf8Decode_encode a
  rw [h, utf8Decode_encode b] at ha
  exact (Option.some_inj.mp ha).symm

/-! ### Lemmas: base64url -/

theorem b64Char_code : ∀ v, v < 64 → b64Code (b64Char v).toNat = some v := by decide

theorem b64Char_ascii : ∀ v, v < 64 → (b64Char v).toNat < 128 := by decide

theorem b64Char_ne_dot : ∀ v, v < 64 → b64Char v ≠ '.' := by decide

theorem b64Char_not_nl : ∀ v, v < 64 → ¬((b64Char v).toNat = 13 ∨ (b64Char v).toNat = 10) := by
  decide

theorem b64Char_ne_61 : ∀ v, v < 64 → (b64Char v).toNat ≠ 61 := by decide

theorem mem_base64urlEncode : ∀ (bs : List Nat) (c : Char), c ∈ base64urlEncode bs →
    ∃ v, v < 64 ∧ c = b64Char v
  | b1 :: b2 :: b3 :: rest, c, h => by
    simp only [base64urlEncode, List.mem_cons] at h
    rcases h with rfl | rfl | rfl | rfl | h
    · exact ⟨_, by omega, rfl⟩
    · exact ⟨_, by omega, rfl⟩
    · exact ⟨_, by omega, rfl⟩
    · exact ⟨_, by omega, rfl⟩
    · exact mem_base64urlEncode rest c h
  | [b1, b2], c, h => by
    simp only [base64urlEncode, List.mem_cons, List.not_mem_nil, or_false] at h
    rcases h with rfl | rfl | rfl
    · exact ⟨_, by omega, rfl⟩
    · exact ⟨_, by omega, rfl⟩
    · exact ⟨_, by omega, rfl⟩
  | [b1], c, h => by
    simp only [base64urlEncode, List.mem_cons, List.not_mem_nil, or_false] at h
    rcases h with rfl | rfl
    · exact ⟨_, by omega, rfl⟩
    · exact ⟨_, by omega, rfl⟩
  | [], c, h => by simp [base64urlEncode] at h

theorem dot_not_mem_base64urlEncode (bs : List Nat) : '.' ∉ base64urlEncode bs := by
  intro h
  obtain ⟨v, hv, he⟩ := mem_base64urlEncode bs _ h
  exact b64Char_ne_dot v hv he.symm

theorem base64urlEncode_ascii (bs : List Nat) :
    ∀ c ∈ base64urlEncode bs, c.toNat < 128 := by
  intro c h
  obtain ⟨v, hv, rfl⟩ := mem_base64urlEncode bs c h
  exact b64Char_ascii v hv

theorem utf8Encode_base64urlEncode (bs : List Nat) :
    utf8Encode (base64urlEncode bs) = (base64urlEncode bs).map Char.toNat :=
  utf8Encode_ascii (base64urlEncode_ascii bs)

theorem b64loop_step (l : List Nat) (buf modulus : Nat) (acc : List Nat) (v : Nat)
    (hv : v < 64) (hm : modulus + 1 ≠ 4) :
    base64urlDecodeLoop ((b64Char v).toNat :: l) buf modulus acc
      = base64urlDecodeLoop l ((buf + v) * 64 % 4294967296) (modulus + 1) acc := by
  simp only [base64urlDecodeLoop, if_neg (b64Char_not_nl v hv),
    if_neg (b64Char_ne_61 v hv), b64Char_code v hv, if_neg hm]

theorem b64loop_step4 (l : List Nat) (buf : Nat) (acc : List Nat) (v : Nat)
    (hv : v < 64) :
    base64urlDecodeLoop ((b64Char v).toNat :: l) buf 3 acc
      = base64urlDecodeLoop l 0 0
          (acc ++ [(buf + v) * 64 % 4294967296 / 4194304 % 256,
            (buf + v) * 64 % 4294967296 / 16384 % 256,
            (buf + v) * 64 % 4294967296 / 64 % 256]) := by
  simp only [base64urlDecodeLoop, if_neg (b64Char_not_nl v hv),
    if_neg (b64Char_ne_61 v hv), b64Char_code v hv]
  exact if_pos trivial

theorem b64loop_encode : ∀ (bs : List Nat) (acc : List Nat), (∀ b ∈ bs, b < 256) →
    base64urlDecodeLoop ((base64urlEncode bs).map Char.toNat) 0 0 acc = some (acc ++ bs)
  | b1 :: b2 :: b3 :: rest, acc, hlt => by
    have h1 : b1 < 256 := hlt b1 (by simp)
    have h2 : b2 < 256 := hlt b2 (by simp)
    have h3 : b3 < 256 := hlt b3 (by simp)
    simp only [base64urlEncode, List.map_cons]
    rw [b64loop_step _ _ _ _ _ (by omega) (by omega),
      b64loop_step _ _ _ _ _ (by omega) (by omega),
      b64loop_step _ _ _ _ _ (by omega) (by omega),
      b64loop_step4 _ _ _ _ (by omega),
      b64loop_encode rest _ (fun b hb => hlt b (by simp [hb]))]
    congr 1
    have e : ∀ x1 x2 x3 : Nat, acc ++ [x1, x2, x3] ++ rest = acc ++ x1 :: x2 :: x3 :: rest := by
      intro x1 x2 x3
      simp
    rw [e]
    congr 2
    · omega
    · congr 1
      · omega
      · congr 1
        omega
  | [b1, b2], acc, hlt => by
    have h1 : b1 < 256 := hlt b1 (by simp)
    have h2 : b2 < 256 := hlt b2 (by simp)
    simp only [base64urlEncode, List.map_cons, List.map_nil]
    rw [b64loop_step _ _ _ _ _ (by omega) (by omega),
      b64loop_step _ _ _ _ _ (by omega) (by omega),
      b64loop_step _ _ _ _ _ (by omega) (by omega)]
    simp only [base64urlDecodeLoop, b64Flush]
    congr 1
    have e : ∀ x1 x2 : Nat, acc ++ [x1, x2] = acc ++ b1 :: b2 :: ([] : List Nat) ↔
        x1 = b1 ∧ x2 = b2 := by
      intro x1 x2
      constructor
      · intro h
        have := List.append_cancel_left h
        simp at this
        exact this
      · rintro ⟨rfl, rfl⟩; rfl
    rw [show (acc ++ b1 :: b2 :: ([] : List Nat)) = acc ++ [b1, b2] from rfl]
    congr 2
    · omega
    · congr 1
      omega
  | [b1], acc, hlt => by
    have h1 : b1 < 256 := hlt b1 (by simp)
    simp only [base64urlEncode, List.map_cons, List.map_nil]
    rw [b64loop_step _ _ _ _ _ (by omega) (by omega),
      b64loop_step _ _ _ _ _ (by omega) (by omega)]
    simp only [base64urlDecodeLoop, b64Flush]
    congr 1
    congr 2
    omega
  | [], acc, _ => by
    simp [base64urlEncode, base64urlDecodeLoop, b64Flush]

theorem base64urlDecode_encode {bs : List Nat} (hlt : ∀ b ∈ bs, b < 256) :
    base64urlDecode ((base64urlEncode bs).map Char.toNat) = some bs := by
  unfold base64urlDecode
  rw [b64loop_encode bs [] hlt]
  simp

theorem base64urlEncode_length : ∀ bs : List Nat,
    (base64urlEncode bs).length
      = 4 * (bs.length / 3) + (if bs.length % 3 = 0 then 0 else bs.length % 3 + 1)
  | b1 :: b2 :: b3 :: rest => by
    simp only [base64urlEncode, List.length_cons, base64urlEncode_length rest]
    by_cases h : rest.length % 3 = 0
    · rw [if_pos h, if_pos (by omega)]
      omega
    · rw [if_neg h, if_neg (by omega)]
      omega
  | [b1, b2] => by simp [base64urlEncode]
  | [b1] => by simp [base64urlEncode]
  | [] => by simp [base64urlEncode]

/-! ### Lemmas: digest and signature lengths -/

theorem beBytes_length : ∀ k n : Nat, (beBytes k n).length = k
  | 0, _ => rfl
  | k + 1, n => by simp [beBytes, beBytes_length k]

theorem sha256_length (msg : List Nat) : (sha256 msg).length = 32 := by
  unfold sha256
  simp [beBytes_length]

theorem sha512_length (msg : List Nat) : (sha512 msg).length = 64 := by
  unfold sha512
  simp [beBytes_length]

theorem sha384_length (msg : List Nat) : (sha384 msg).length = 48 := by
  unfold sha384
  simp [beBytes_length]

theorem hashOf_length (a : Algorithm) (msg : List Nat) :
    (hashOf a msg).length = digestLen a := by
  cases a <;> simp [hashOf, digestLen, sha256_length, sha384_length, sha512_length]

theorem hmacDigest_length (a : Algorithm) (key msg : List Nat) :
    (hmacDigest a key msg).length = digestLen a := by
  unfold hmacDigest
  exact hashOf_length a _

theorem sign_length (data : List Char) (secret : List Nat) (a : Algorithm) :
    (sign data secret a).length = sigLen a := by
  unfold sign
  rw [base64urlEncode_length, hmacDigest_length]
  cases a <;> simp [digestLen, sigLen]

theorem dot_not_mem_sign (data : List Char) (secret : List Nat) (a : Algorithm) :
    '.' ∉ sign data secret a := by
  unfold sign
  exact dot_not_mem_base64urlEncode _

theorem sign_ascii (data : List Char) (secret : List Nat) (a : Algorithm) :
    ∀ c ∈ sign data secret a, c.toNat < 128 := by
  unfold sign
  exact base64urlEncode_ascii _

/-! ### Lemmas: verify -/

theorem utf8Encode_length_ascii {s : List Char} (h : ∀ c ∈ s, c.toNat < 128) :
    (utf8Encode s).length = s.length := by
  rw [utf8Encode_ascii h]
  simp

theorem verify_eq_true_iff {sig data : List Char} {sk : List Nat} {a : Algorithm} :
    verify sig data sk a = true ↔ sig = sign data sk a := by
  unfold verify
  rw [fixed_time_eq_iff]
  constructor
  · exact utf8Encode_injective
  · rintro rfl
    rfl

theorem verify_sign_self (p : List Char) (sk : List Nat) (a : Algorithm) :
    verify (sign p sk a) p sk a = true :=
  verify_eq_true_iff.mpr rfl

theorem fixed_time_eq_ne_length {a b : List Nat} (h : a.length ≠ b.length) :
    fixed_time_eq a b = false := by
  unfold fixed_time_eq
  rw [if_neg h]

theorem verify_false_of_ascii_length {sig data : List Char} {sk : List Nat} {a : Algorithm}
    (hascii : ∀ c ∈ sig, c.toNat < 128) (hlen : sig.length ≠ sigLen a) :
    verify sig data sk a = false := by
  unfold verify
  apply fixed_time_eq_ne_length
  rw [utf8Encode_length_ascii hascii, utf8Encode_length_ascii (sign_ascii data sk a),
    sign_length]
  exact hlen

/-! ### Lemmas: header codec -/

theorem from_base64_literal (a : Algorithm) :
    Header.from_base64 (utf8Encode (headerLiteral a)) = .ok (Header.new a) := by
  cases a <;> rfl

theorem headerLiteral_injective {a b : Algorithm}
    (h : headerLiteral a = headerLiteral b) : a = b := by
  cases a <;> cases b <;> first | rfl | (exfalso; exact absurd h (by decide))

theorem from_base64_eq_ok {s : List Nat} {h : Header}
    (he : Header.from_base64 s = .ok h) :
    ∃ a, s = utf8Encode (headerLiteral a) ∧ h = Header.new a := by
  unfold Header.from_base64 at he
  by_cases h1 : s = utf8Encode (headerLiteral .HS256)
  · rw [if_pos h1] at he
    cases he
    exact ⟨.HS256, h1, rfl⟩
  · rw [if_neg h1] at he
    by_cases h2 : s = utf8Encode (headerLiteral .HS384)
    · rw [if_pos h2] at he
      cases he
      exact ⟨.HS384, h2, rfl⟩
    · rw [if_neg h2] at he
      by_cases h3 : s = utf8Encode (headerLiteral .HS512)
      · rw [if_pos h3] at he
        cases he
        exact ⟨.HS512, h3, rfl⟩
      · rw [if_neg h3] at he
        cases he

theorem from_base64_eq_error {s : List Nat}
    (hne : ∀ a : Algorithm, s ≠ utf8Encode (headerLiteral a)) :
    Header.from_base64 s = .error .InvalidToken := by
  unfold Header.from_base64
  rw [if_neg (hne .HS256), if_neg (hne .HS384), if_neg (hne .HS512)]

/-! ### Lemmas: encode and decode -/

theorem encode_ok {T : Type} (P : PartCodec T) {c : T} {j : List Char} (sk : List Nat)
    (A : Algorithm) (henc : P.enc c = some j) :
    encode P c sk A
      = .ok ((headerLiteral A ++ '.' :: base64urlEncode (utf8Encode j))
          ++ '.' :: sign (headerLiteral A ++ '.' :: base64urlEncode (utf8Encode j)) sk A) := by
  unfold encode Header.to_base64 part_to_base64
  rw [henc]
  simp [Header.new]

theorem encode_err {T : Type} (P : PartCodec T) {c : T} (sk : List Nat) (A : Algorithm)
    (henc : P.enc c = none) :
    encode P c sk A = .error .JsonEncodeError := by
  unfold encode Header.to_base64 part_to_base64
  rw [henc]

theorem decode_no_dot {T : Type} (P : PartCodec T) {token : List Char}
    (h : '.' ∉ token) (secret : List Char) (alg : Algorithm) :
    decode P token secret alg = .error .InvalidToken := by
  unfold decode
  rw [rsplitn2_eq_none.mpr h]

theorem decode_verify_false {T : Type} (P : PartCodec T) {token sig payload : List Char}
    {secret : List Char} {alg : Algorithm}
    (hsplit : rsplitn2 '.' token = some (sig, payload))
    (hv : verify sig payload (utf8Encode secret) alg = false) :
    decode P token secret alg = .error .InvalidSignature := by
  unfold decode
  rw [hsplit]
  simp [hv]

theorem decode_verify_true_no_dot {T : Type} (P : PartCodec T) {token sig payload : List Char}
    {secret : List Char} {alg : Algorithm}
    (hsplit : rsplitn2 '.' token = some (sig, payload))
    (hv : verify sig payload (utf8Encode secret) alg = true)
    (hp : '.' ∉ payload) :
    decode P token secret alg = .error .InvalidToken := by
  unfold decode
  rw [hsplit]
  simp [hv, rsplitn2_eq_none.mpr hp]

theorem part_from_base64_encode {T : Type} (P : PartCodec T) {c : T} {j : List Char}
    (hdec : P.dec j = some c) :
    part_from_base64 P (utf8Encode (base64urlEncode (utf8Encode j))) = .ok c := by
  unfold part_from_base64
  rw [utf8Encode_base64urlEncode, base64urlDecode_encode utf8Encode_lt]
  simp [utf8Decode_encode, hdec]

theorem decode_encode {T : Type} (P : PartCodec T) {c : T} {j : List Char}
    (S : List Char) (A : Algorithm) (hdec : P.dec j = some c) :
    decode P ((headerLiteral A ++ '.' :: base64urlEncode (utf8Encode j))
        ++ '.' :: sign (headerLiteral A ++ '.' :: base64urlEncode (utf8Encode j))
            (utf8Encode S) A) S A
      = .ok c := by
  unfold decode
  rw [rsplitn2_append _ (dot_not_mem_sign _ _ _)]
  simp only [verify_sign_self, if_true]
  rw [rsplitn2_append _ (dot_not_mem_base64urlEncode _)]
  simp only []
  rw [from_base64_literal]
  simp only []
  have halg : ¬ (Header.new A).alg ≠ A := by simp [Header.new]
  rw [if_neg halg]
  exact part_from_base64_encode P hdec

theorem from_base64_error_eq {s : List Nat} {e : Error}
    (h : Header.from_base64 s = .error e) : e = .InvalidToken := by
  unfold Header.from_base64 at h
  by_cases h1 : s = utf8Encode (headerLiteral .HS256)
  · rw [if_pos h1] at h
    exact absurd h (by simp)
  · rw [if_neg h1] at h
    by_cases h2 : s = utf8Encode (headerLiteral .HS384)
    · rw [if_pos h2] at h
      exact absurd h (by simp)
    · rw [if_neg h2] at h
      by_cases h3 : s = utf8Encode (headerLiteral .HS512)
      · rw [if_pos h3] at h
        exact absurd h (by simp)
      · rw [if_neg h3] at h
        exact (Except.error.inj h).symm

theorem part_from_base64_error {T : Type} {P : PartCodec T} {s : List Nat} {e : Error}
    (h : part_from_base64 P s = .error e) :
    e = .Base64DecodeError ∨ e = .Utf8DecodeError ∨ e = .JsonDecodeError := by
  unfold part_from_base64 at h
  cases hb : base64urlDecode s with
  | none =>
    simp only [hb] at h
    exact Or.inl (Except.error.inj h).symm
  | some bytes =>
    simp only [hb] at h
    cases hu : utf8Decode bytes with
    | none =>
      simp only [hu] at h
      exact Or.inr (Or.inl (Except.error.inj h).symm)
    | some str =>
      simp only [hu] at h
      cases hd : P.dec str with
      | none =>
        simp only [hd] at h
        exact Or.inr (Or.inr (Except.error.inj h).symm)
      | some v =>
        simp only [hd] at h
        exact absurd h (by simp)

theorem decode_wrong_header {T : Type} (P : PartCodec T) {payload claims : List Char}
    (secret : List Char) {A B : Algorithm}
    (hpl : payload = headerLiteral B ++ '.' :: claims) (hc : '.' ∉ claims) (hne : B ≠ A) :
    decode P (payload ++ '.' :: sign payload (utf8Encode secret) A) secret A
      = .error .WrongAlgorithmHeader := by
  unfold decode
  rw [rsplitn2_append _ (dot_not_mem_sign _ _ _)]
  simp only [verify_sign_self, if_true]
  subst hpl
  rw [rsplitn2_append _ hc]
  simp only []
  rw [from_base64_literal]
  simp only []
  rw [if_pos (by simp [Header.new, hne])]

set_option maxRecDepth 1000000

/-! ### The claims -/

/-- C1: for every claims record `C` whose serialization succeeds and whose
codec round-trips it, every secret `S` and algorithm `A`,
`decode (encode C S A) S A` succeeds and returns `C`. -/
theorem claim_C1_roundtrip {T : Type} (P : PartCodec T) (c : T) (j : List Char)
    (S : List Char) (A : Algorithm) (henc : P.enc c = some j) (hdec : P.dec j = some c) :
    (encode P c (utf8Encode S) A).bind (fun tok => decode P tok S A) = .ok c := by
  rw [encode_ok P (utf8Encode S) A henc]
  show decode P _ S A = .ok c
  exact decode_encode P S A hdec

theorem claim_C1_roundtrip_witness :
    (encode idCodec "hi".toList (utf8Encode "secret".toList) .HS256).bind
        (fun tok => decode idCodec tok "secret".toList .HS256) = .ok "hi".toList :=
  claim_C1_roundtrip idCodec "hi".toList "hi".toList "secret".toList .HS256 rfl rfl

/-- C2 (amended): a token signed with HS256, decoded while requesting HS384,
fails with `InvalidSignature`, not `WrongAlgorithmHeader`: the signature is
verified before the header is looked at, and the HS384 recomputation (64
base64 characters) can never equal an HS256 signature (43 characters). -/
theorem claim_C2_amended {T : Type} (P : PartCodec T) (payload : List Char)
    (sk : List Nat) (S : List Char) :
    decode P (payload ++ '.' :: sign payload sk .HS256) S .HS384
      = .error .InvalidSignature := by
  apply decode_verify_false P (rsplitn2_append payload (dot_not_mem_sign _ _ _))
  apply verify_false_of_ascii_length (sign_ascii _ _ _)
  rw [sign_length]
  decide

/-- C2 (counterexample): the concrete HS256 token for claims `{}` and secret
`"secret"`, decoded requesting HS384, yields `InvalidSignature` — not the
`WrongAlgorithmHeader` the claim demands. -/
theorem claim_C2_counterexample :
    (encode idCodec "\x7b\x7d".toList (utf8Encode "secret".toList) .HS256).bind
        (fun t => decode idCodec t "secret".toList .HS384) = .error .InvalidSignature
    ∧ Error.InvalidSignature ≠ Error.WrongAlgorithmHeader := by
  constructor
  · rw [encode_ok idCodec (utf8Encode "secret".toList) .HS256 rfl]
    simp only [Except.bind]
    apply decode_verify_false idCodec (rsplitn2_append _ (dot_not_mem_sign _ _ _))
    exact verify_false_of_ascii_length (sign_ascii _ _ _) (by rw [sign_length]; decide)
  · decide

/-- C3 (amended): a token without any `'.'` fails with `InvalidToken`; a token
that does split into signature and payload fails with `InvalidSignature` first
whenever the signature does not verify, and only when it verifies and the
payload lacks a second `'.'` does the missing arity surface as `InvalidToken`. -/
theorem claim_C3_amended {T : Type} (P : PartCodec T) (token secret : List Char)
    (A : Algorithm) :
    ('.' ∉ token → decode P token secret A = .error .InvalidToken)
    ∧ (∀ sig payload, rsplitn2 '.' token = some (sig, payload) →
        (verify sig payload (utf8Encode secret) A = false →
          decode P token secret A = .error .InvalidSignature)
        ∧ (verify sig payload (utf8Encode secret) A = true → '.' ∉ payload →
          decode P token secret A = .error .InvalidToken)) := by
  refine ⟨fun h => decode_no_dot P h secret A, fun sig payload hs => ⟨?_, ?_⟩⟩
  · exact fun hv => decode_verify_false P hs hv
  · exact fun hv hp => decode_verify_true_no_dot P hs hv hp

theorem claim_C3_amended_witness :
    decode idCodec "abc".toList "secret".toList .HS256 = .error .InvalidToken :=
  (claim_C3_amended idCodec "abc".toList "secret".toList .HS256).1 (by decide)

/-- C3 (counterexample): `"a.b"` does not split into three non-empty segments,
yet decode returns `InvalidSignature` (the spurious signature `"b"` is checked
first and rejected), not the `InvalidToken` the claim demands. -/
theorem claim_C3_counterexample :
    decode idCodec "a.b".toList "secret".toList .HS256 = .error .InvalidSignature
    ∧ Error.InvalidSignature ≠ Error.InvalidToken := by
  constructor
  · have hsplit : rsplitn2 '.' "a.b".toList = some ("b".toList, "a".toList) := by decide
    exact decode_verify_false idCodec hsplit
      (verify_false_of_ascii_length (by decide) (by decide))
  · decide

/-- C4: whenever the token splits from the right into a signed payload and a
signature and `verify` rejects, `decode` returns `InvalidSignature` — for every
claims codec, so no header decoding or claims deserialization (and none of the
Base64/Utf8/Json/WrongAlgorithmHeader errors) can occur. -/
theorem claim_C4_invalid_signature {T : Type} (P : PartCodec T)
    (token sig payload secret : List Char) (A : Algorithm)
    (hsplit : rsplitn2 '.' token = some (sig, payload))
    (hv : verify sig payload (utf8Encode secret) A = false) :
    decode P token secret A = .error .InvalidSignature :=
  decode_verify_false P hsplit hv

theorem claim_C4_witness :
    decode idCodec "a.b".toList "secret".toList .HS256 = .error .InvalidSignature :=
  claim_C4_invalid_signature idCodec "a.b".toList "b".toList "a".toList
    "secret".toList .HS256 (by decide)
    (verify_false_of_ascii_length (by decide) (by decide))

/-- C5: `Header.from_base64` succeeds with the matching algorithm exactly on
the three fixed literals — which are precisely the base64url encodings of the
three header JSON texts — and returns `InvalidToken` on every other input. -/
theorem claim_C5_header_from_base64 :
    (∀ a : Algorithm, headerLiteral a = base64urlEncode (utf8Encode (headerJson a)))
    ∧ (∀ (s : List Nat) (r : Except Error Header),
        Header.from_base64 s = r ↔
          ((∃ a, s = utf8Encode (headerLiteral a) ∧ r = .ok (Header.new a))
            ∨ ((∀ a, s ≠ utf8Encode (headerLiteral a)) ∧ r = .error .InvalidToken))) := by
  constructor
  · intro a
    cases a <;> decide
  · intro s r
    constructor
    · intro h
      by_cases h1 : s = utf8Encode (headerLiteral .HS256)
      · subst h1
        exact Or.inl ⟨.HS256, rfl, by rw [← h, from_base64_literal]⟩
      · by_cases h2 : s = utf8Encode (headerLiteral .HS384)
        · subst h2
          exact Or.inl ⟨.HS384, rfl, by rw [← h, from_base64_literal]⟩
        · by_cases h3 : s = utf8Encode (headerLiteral .HS512)
          · subst h3
            exact Or.inl ⟨.HS512, rfl, by rw [← h, from_base64_literal]⟩
          · have hne : ∀ a : Algorithm, s ≠ utf8Encode (headerLiteral a) := by
              intro a
              cases a <;> assumption
            exact Or.inr ⟨hne, by rw [← h, from_base64_eq_error hne]⟩
    · rintro (⟨a, rfl, rfl⟩ | ⟨hne, rfl⟩)
      · exact from_base64_literal a
      · exact from_base64_eq_error hne

/-- C6: `verify` returns `true` exactly when the supplied signature equals the
re-computed one; a mismatch yields the boolean `false`, never an error. -/
theorem claim_C6_verify_iff (sig data : List Char) (sk : List Nat) (A : Algorithm) :
    verify sig data sk A = true ↔ sig = sign data sk A :=
  verify_eq_true_iff

/-- C7: `encode` succeeds exactly when the claims serialization does, and then
produces `header_b64 ++ "." ++ claims_b64 ++ "." ++ sign(header_b64 ++ "." ++
claims_b64)`; the only failure is the serialization failure. -/
theorem claim_C7_encode_spec {T : Type} (P : PartCodec T) (c : T) (sk : List Nat)
    (A : Algorithm) :
    encode P c sk A
      = match P.enc c with
        | some j =>
          .ok ((headerLiteral A ++ '.' :: base64urlEncode (utf8Encode j))
            ++ '.' :: sign (headerLiteral A ++ '.' :: base64urlEncode (utf8Encode j)) sk A)
        | none => .error .JsonEncodeError := by
  cases h : P.enc c with
  | none => rw [encode_err P sk A h]
  | some j => rw [encode_ok P sk A h]

/-- C8: the two known vectors — the HS256 header literal and the HS256
signature of `"hello world"` with secret `b"secret"` — hold, by computing the
full HMAC-SHA-256 pipeline in the kernel. -/
theorem claim_C8_known_vectors :
    Header.to_base64 (Header.new .HS256)
      = .ok "eyJ0eXAiOiJKV1QiLCJhbGciOiJIUzI1NiJ9".toList
    ∧ sign "hello world".toList [115, 101, 99, 114, 101, 116] .HS256
      = "c0zGLzKEFWj0VxWuufTXiRMk5tlI5MbGDAYhzaxIYjo".toList := by
  constructor
  · rfl
  · decide

/-- C9: the comparison loop underlying `fixed_time_eq` (and thus `verify`)
performs one byte comparison per zipped pair — `min` of the lengths, the full
common length — independent of where or whether the inputs differ: the
comparison count is a function of the lengths alone, never of the contents. -/
theorem claim_C9_constant_time (lhs rhs : List Nat) :
    (ctFold (lhs.zip rhs) 0).2 = min lhs.length rhs.length := by
  rw [ctFold_snd, List.length_zip]

/-- C10: `WrongAlgorithmHeader` is only ever reported for a token whose
signature segment verifies under the caller's algorithm and secret and whose
header segment is one of the three known literals, naming an algorithm other
than the requested one. -/
theorem claim_C10_wrong_algorithm {T : Type} (P : PartCodec T)
    (token secret : List Char) (A : Algorithm)
    (h : decode P token secret A = .error .WrongAlgorithmHeader) :
    ∃ sig payload claims header a,
      rsplitn2 '.' token = some (sig, payload)
      ∧ verify sig payload (utf8Encode secret) A = true
      ∧ rsplitn2 '.' payload = some (claims, header)
      ∧ header = headerLiteral a
      ∧ a ≠ A := by
  unfold decode at h
  cases hs : rsplitn2 '.' token with
  | none =>
    simp only [hs] at h
    exact Error.noConfusion (Except.error.inj h)
  | some pr =>
    obtain ⟨sig, payload⟩ := pr
    simp only [hs] at h
    by_cases hv : verify sig payload (utf8Encode secret) A = true
    · rw [if_pos hv] at h
      cases hp : rsplitn2 '.' payload with
      | none =>
        simp only [hp] at h
        exact Error.noConfusion (Except.error.inj h)
      | some pr2 =>
        obtain ⟨claims, header⟩ := pr2
        simp only [hp] at h
        cases hh : Header.from_base64 (utf8Encode header) with
        | error e =>
          simp only [hh] at h
          have he := from_base64_error_eq hh
          subst he
          exact Error.noConfusion (Except.error.inj h)
        | ok hd =>
          simp only [hh] at h
          obtain ⟨a, hsa, rfl⟩ := from_base64_eq_ok hh
          by_cases ha : a = A
          · subst ha
            rw [if_neg (by simp [Header.new])] at h
            rcases part_from_base64_error h with h1 | h1 | h1 <;>
              exact Error.noConfusion h1
          · exact ⟨sig, payload, claims, header, a, rfl, hv, hp,
              utf8Encode_injective hsa, ha⟩
    · rw [if_neg hv] at h
      exact Error.noConfusion (Except.error.inj h)

theorem claim_C10_witness :
    ∃ sig payload claims header a,
      rsplitn2 '.' ((headerLiteral .HS384 ++ '.' :: ['x'])
          ++ '.' :: sign (headerLiteral .HS384 ++ '.' :: ['x']) (utf8Encode ['s']) .HS256)
        = some (sig, payload)
      ∧ verify sig payload (utf8Encode ['s']) .HS256 = true
      ∧ rsplitn2 '.' payload = some (claims, header)
      ∧ header = headerLiteral a
      ∧ a ≠ .HS256 :=
  claim_C10_wrong_algorithm idCodec
    ((headerLiteral .HS384 ++ '.' :: ['x'])
      ++ '.' :: sign (headerLiteral .HS384 ++ '.' :: ['x']) (utf8Encode ['s']) .HS256)
    ['s'] .HS256
    (decode_wrong_header idCodec ['s'] rfl (by decide) (by decide))

end JWT
